import Mathlib

/-!
Verification of the batch OCR core (`batch_ocr.py`, class `BatchOCR`).

The external world (PIL + pytesseract + the filesystem) is modelled by
explicit parameters:
* the availability probe performed at construction time
  (`pytesseract.get_tesseract_version()`) is an `Except String Unit`;
* the recognition capability is a function from an image path to a
  `RecOutcome` (the combined behaviour of `Image.open` and
  `pytesseract.image_to_string` for that call); `process_batch` receives a
  family indexed by the loop iteration, since the external engine may answer
  differently on different calls;
* the file write inside `save_to_json` is an `Except String Unit`.

Observable side effects (progress-callback invocations and recognition
attempts) are returned as an explicit event trace, and each method returns
the post-state of the `BatchOCR` object so that frame conditions are
provable.
-/

/-- Outcome of one call of the external recognition capability on one image:
either raw recognized text, or an exception raised while opening/decoding the
image or recognizing it (caught inside `process_image`). -/
inductive RecOutcome where
  | success (text : String)
  | failure
  deriving DecidableEq, Repr

/-- Whether the outcome is a successful recognition. -/
def RecOutcome.isSuccessB : RecOutcome → Bool
  | .success _ => true
  | .failure => false

/-- Whether an `Except` value is `ok`. -/
def isOkB {ε α : Type} : Except ε α → Bool
  | .ok _ => true
  | .error _ => false

/-- Observable events of a batch run: an invocation of the progress callback
(`callback(i, total, os.path.basename(path))`) and an actual recognition
attempt on an image (entering the `try` block of `process_image`). -/
inductive Event where
  | progress (i : Nat) (total : Nat) (label : String)
  | attempt (path : String)
  deriving DecidableEq, Repr

/-- The state of a `BatchOCR` object: the availability flag cached by
`__init__` (`self.tesseract_available`). -/
structure BatchOCR where
  tesseract_available : Bool
  deriving DecidableEq, Repr

/-- Model of `os.path.basename` for POSIX-style paths: the component after
the last separator (computed over the character list so that it evaluates by
kernel reduction). -/
def basename (p : String) : String :=
  ⟨p.data.foldl (fun acc c => if c = '/' then [] else acc ++ [c]) []⟩

/-- Model of Python's `str.strip()`: drop whitespace from both ends. -/
def pyStrip (s : String) : String :=
  ⟨((s.data.dropWhile Char.isWhitespace).reverse.dropWhile
      Char.isWhitespace).reverse⟩

/-- The message of the `RuntimeError` raised by `process_image` when the
engine is unavailable (the spec's `EngineUnavailable`). -/
def tesseract_error_msg : String :=
  "Tesseract OCR is not installed or not in your PATH. " ++
  "Please install Tesseract OCR and make sure it's in your PATH, " ++
  "or provide the path to the executable when initializing BatchOCR. " ++
  "See README file for installation instructions."

/-- Model of `BatchOCR.__init__`: the command-path discovery only configures
the external pytesseract module; the availability flag is determined by the
single probe `pytesseract.get_tesseract_version()`, whose outcome is the
parameter.  Any probe failure is caught and recorded as unavailable. -/
def BatchOCR.init (probe : Except String Unit) : BatchOCR :=
  match probe with
  | .ok _ => { tesseract_available := true }
  | .error _ => { tesseract_available := false }

/-- Model of `BatchOCR.process_image`: raise `RuntimeError` when the cached
flag is false; otherwise attempt recognition (`Image.open` +
`image_to_string`, the parameter `e`), returning the stripped text on
success and the empty string when any exception was caught.  Returns the
post-state, the emitted events, and the normal/exceptional result. -/
def process_image (self : BatchOCR) (e : String → RecOutcome)
    (image_path : String) : BatchOCR × List Event × Except String String :=
  if self.tesseract_available = false then
    (self, [], Except.error tesseract_error_msg)
  else
    match e image_path with
    | .success text =>
      (self, [Event.attempt image_path], Except.ok (pyStrip text))
    | .failure => (self, [Event.attempt image_path], Except.ok "")

/-- The text recorded for an image by the `try` block of `process_image`:
the stripped recognized text on success, `""` on a caught exception. -/
def recognizedText (e : String → RecOutcome) (p : String) : String :=
  match e p with
  | .success t => pyStrip t
  | .failure => ""

/-- Python dict assignment `d[k] = v`: if the key is present its value is
updated in place (keeping its original position), otherwise the pair is
appended. -/
def dictInsert (d : List (String × String)) (k v : String) :
    List (String × String) :=
  if d.any (fun kv => kv.1 == k) then
    d.map (fun kv => if kv.1 == k then (kv.1, v) else kv)
  else
    d ++ [(k, v)]

/-- A Python dict built by inserting a list of key/value pairs in order into
an empty dict. -/
def dictOfPairs (pairs : List (String × String)) : List (String × String) :=
  pairs.foldl (fun acc kv => dictInsert acc kv.1 kv.2) []

/-- The loop of `process_batch`: at iteration `i`, first invoke the callback
(when provided) with `(i, total, basename path)`, then call `process_image`;
a raised exception propagates, a normal result is stored under the path. -/
def process_batch_go (engine : Nat → String → RecOutcome) (cb : Bool)
    (total : Nat) :
    BatchOCR → Nat → List String → List (String × String) →
    BatchOCR × List Event × Except String (List (String × String))
  | self, _, [], results => (self, [], Except.ok results)
  | self, i, path :: rest, results =>
    let evs : List Event :=
      if cb then [Event.progress i total (basename path)] else []
    match process_image self (engine i) path with
    | (self1, evs1, Except.error e) => (self1, evs ++ evs1, Except.error e)
    | (self1, evs1, Except.ok text) =>
      match process_batch_go engine cb total self1 (i + 1) rest
          (dictInsert results path text) with
      | (self2, evs2, r) => (self2, evs ++ evs1 ++ evs2, r)

/-- Model of `BatchOCR.process_batch`: `total = len(image_paths)`, the loop
starts at index 0 with an empty results dict.  `cb` records whether a
progress callback was provided. -/
def process_batch (self : BatchOCR) (engine : Nat → String → RecOutcome)
    (image_paths : List String) (cb : Bool) :
    BatchOCR × List Event × Except String (List (String × String)) :=
  process_batch_go engine cb image_paths.length self 0 image_paths []

/-- The dict comprehension of `save_to_json`:
`\x7bos.path.basename(k): v for k, v in results.items()\x7d`. -/
def formatted_results (results : List (String × String)) :
    List (String × String) :=
  results.foldl (fun acc kv => dictInsert acc (basename kv.1) kv.2) []

/-- Model of `BatchOCR.save_to_json`: compute the basename-keyed dict, then
attempt the file write (`io`); every exception is caught and turns into a
`false` return.  Returns the post-state, the boolean result, and the
formatted dict that is (or would be) written. -/
def save_to_json (self : BatchOCR) (results : List (String × String))
    (io : Except String Unit) : BatchOCR × Bool × List (String × String) :=
  match io with
  | .ok _ => (self, true, formatted_results results)
  | .error _ => (self, false, formatted_results results)

/-- Keys of a list of key/value pairs with first occurrences kept, later
duplicates dropped (the key order of a Python dict built by insertion). -/
def dedupKeepFirst : List String → List String
  | [] => []
  | a :: rest => a :: (dedupKeepFirst rest).filter (fun b => b != a)

/-- The value attached to the last pair with key `k`, or `d` if there is
none. -/
def lastValD (pairs : List (String × String)) (k d : String) : String :=
  ((pairs.filter (fun kv => kv.1 == k)).map Prod.snd).getLastD d

/-- The index of the last occurrence of `k` in `paths` (0 if absent). -/
def lastOccIdx (paths : List String) (k : String) : Nat :=
  ((paths.enum.filter (fun ip => ip.2 == k)).map Prod.fst).getLastD 0

-- ### Basic lemmas about the model

theorem process_image_available (e : String → RecOutcome) (p : String) :
    process_image ⟨true⟩ e p =
      (⟨true⟩, [Event.attempt p], Except.ok (recognizedText e p)) := by
  unfold process_image recognizedText
  cases e p <;> simp

theorem process_image_unavailable (e : String → RecOutcome) (p : String) :
    process_image ⟨false⟩ e p =
      (⟨false⟩, [], Except.error tesseract_error_msg) := by
  unfold process_image
  simp

theorem process_image_fst (self : BatchOCR) (e : String → RecOutcome)
    (p : String) : (process_image self e p).1 = self := by
  unfold process_image
  cases h : self.tesseract_available <;> cases e p <;> simp

/-- Claim C4: for the empty input sequence, `process_batch` returns an empty
result mapping and emits zero progress events, and does not raise, regardless
of engine availability. -/
theorem processBatch_empty (self : BatchOCR)
    (engine : Nat → String → RecOutcome) (cb : Bool) :
    process_batch self engine [] cb = (self, [], Except.ok []) := rfl

/-- Claim C6: `save_to_json` returns `true` exactly when the file write
succeeds, and on any I/O or encoding failure it returns `false` normally
(every exception is caught; the function always returns a boolean). -/
theorem saveToJson_bool (self : BatchOCR) (results : List (String × String))
    (io : Except String Unit) :
    (save_to_json self results io).2.1 = isOkB io := by
  unfold save_to_json isOkB
  cases io <;> simp

/-- Claim C9: construction performs its single availability probe without
raising — a failed probe is recorded as unavailable, a successful one as
available — and thereafter the cached flag is used as is: `process_image`
neither re-probes nor updates the flag, and on an instance whose probe
failed it raises `EngineUnavailable`. -/
theorem init_probe_cached (s : String) (u : Unit)
    (e : String → RecOutcome) (p : String) :
    (BatchOCR.init (Except.ok u)).tesseract_available = true ∧
    (BatchOCR.init (Except.error s)).tesseract_available = false ∧
    (process_image (BatchOCR.init (Except.error s)) e p).2.2 =
      Except.error tesseract_error_msg ∧
    (process_image (BatchOCR.init (Except.ok u)) e p).1 =
      BatchOCR.init (Except.ok u) ∧
    (process_image (BatchOCR.init (Except.error s)) e p).1 =
      BatchOCR.init (Except.error s) := by
  refine ⟨rfl, rfl, ?_, process_image_fst _ _ _, process_image_fst _ _ _⟩
  unfold BatchOCR.init process_image
  simp

/-- Claim C1 (counterexample): with the engine unavailable and the non-empty
input `["img/a.png"]` with a callback, `process_batch` raises
`EngineUnavailable` but its emitted progress-event trace is non-empty — one
progress event is emitted before the exception, contradicting "zero progress
events". -/
theorem processBatch_unavailable_counterexample :
    (process_batch ⟨false⟩ (fun _ _ => RecOutcome.failure) ["img/a.png"]
      true).2.2 = Except.error tesseract_error_msg ∧
    (process_batch ⟨false⟩ (fun _ _ => RecOutcome.failure) ["img/a.png"]
      true).2.1 ≠ [] := by
  constructor
  · rfl
  · decide

/-- Claim C1 (amended): with the engine unavailable and any non-empty input,
`process_batch` raises `EngineUnavailable`, performs zero recognition
attempts and records zero results, but when a progress callback is provided
it is invoked exactly once — with index 0, total `n` and the first item's
basename — before the exception propagates (zero events without a
callback). -/
theorem processBatch_unavailable (engine : Nat → String → RecOutcome)
    (p : String) (rest : List String) (cb : Bool) :
    (process_batch ⟨false⟩ engine (p :: rest) cb).2.2 =
      Except.error tesseract_error_msg ∧
    (process_batch ⟨false⟩ engine (p :: rest) cb).2.1 =
      (if cb then [Event.progress 0 (p :: rest).length (basename p)]
       else []) ∧
    (∀ ev ∈ (process_batch ⟨false⟩ engine (p :: rest) cb).2.1,
      ∀ q, ev ≠ Event.attempt q) := by
  unfold process_batch process_batch_go
  rw [process_image_unavailable]
  cases cb <;> simp

theorem process_batch_go_available (engine : Nat → String → RecOutcome)
    (cb : Bool) (total : Nat) (paths : List String) :
    ∀ (i : Nat) (results : List (String × String)),
    process_batch_go engine cb total ⟨true⟩ i paths results =
      (⟨true⟩,
       ((List.enumFrom i paths).map (fun ip =>
         (if cb then [Event.progress ip.1 total (basename ip.2)] else []) ++
         [Event.attempt ip.2])).flatten,
       Except.ok ((List.enumFrom i paths).foldl
         (fun acc ip =>
           dictInsert acc ip.2 (recognizedText (engine ip.1) ip.2))
         results)) := by
  induction paths with
  | nil => intro i results; simp [process_batch_go]
  | cons path rest ih =>
    intro i results
    simp only [process_batch_go, process_image_available, List.enumFrom,
      List.map_cons, List.flatten_cons, List.foldl_cons]
    rw [ih]

theorem process_batch_available (engine : Nat → String → RecOutcome)
    (cb : Bool) (paths : List String) :
    process_batch ⟨true⟩ engine paths cb =
      (⟨true⟩,
       (paths.enum.map (fun ip =>
         (if cb then [Event.progress ip.1 paths.length (basename ip.2)]
          else []) ++ [Event.attempt ip.2])).flatten,
       Except.ok (dictOfPairs (paths.enum.map
         (fun ip => (ip.2, recognizedText (engine ip.1) ip.2))))) := by
  unfold process_batch dictOfPairs
  rw [process_batch_go_available]
  simp [List.enum, List.foldl_map]

/-- Claim C2 (counterexample): with the engine unavailable and the two-item
input `["a.png", "b.png"]` with a callback, the callback is invoked exactly
once (for index 0) rather than once per item: the exception raised inside
the first iteration ends the loop, so index 1 is skipped. -/
theorem progress_per_item_counterexample :
    (process_batch ⟨false⟩ (fun _ _ => RecOutcome.failure)
      ["a.png", "b.png"] true).2.1 = [Event.progress 0 2 "a.png"] ∧
    (process_batch ⟨false⟩ (fun _ _ => RecOutcome.failure)
      ["a.png", "b.png"] true).2.1.length ≠
      (["a.png", "b.png"] : List String).length := by
  constructor
  · rfl
  · decide

/-- Claim C2 (amended): when the cached availability flag is true (the only
case in which recognition attempts occur), `process_batch` with a provided
callback invokes it exactly once per item, synchronously, strictly before
that item's recognition attempt, in strictly increasing 0-based index order
`0..n-1` with no skipped or repeated indices, each time with total `n` and
label the basename of the current image reference: the whole event trace is
exactly `progress i n (basename pᵢ)` followed by `attempt pᵢ`, for `i`
from 0 to `n-1` in order. -/
theorem progress_per_item (engine : Nat → String → RecOutcome)
    (paths : List String) :
    (process_batch ⟨true⟩ engine paths true).2.1 =
      (paths.enum.map (fun ip =>
        [Event.progress ip.1 paths.length (basename ip.2),
         Event.attempt ip.2])).flatten := by
  rw [process_batch_available]
  simp

-- ### Python-dict lemmas

theorem any_key_eq (d : List (String × String)) (k : String) :
    d.any (fun kv => kv.1 == k) = true ↔ k ∈ d.map Prod.fst := by
  simp only [List.any_eq_true, List.mem_map, beq_iff_eq]

theorem dictInsert_of_mem {d : List (String × String)} {k : String}
    (h : k ∈ d.map Prod.fst) (v : String) :
    dictInsert d k v =
      d.map (fun kv => if kv.1 == k then (kv.1, v) else kv) := by
  unfold dictInsert
  rw [if_pos ((any_key_eq d k).mpr h)]

theorem dictInsert_of_not_mem {d : List (String × String)} {k : String}
    (h : k ∉ d.map Prod.fst) (v : String) :
    dictInsert d k v = d ++ [(k, v)] := by
  unfold dictInsert
  rw [if_neg (fun hc => h ((any_key_eq d k).mp hc))]

theorem dictInsert_keys (d : List (String × String)) (k v : String) :
    (dictInsert d k v).map Prod.fst =
      if k ∈ d.map Prod.fst then d.map Prod.fst
      else d.map Prod.fst ++ [k] := by
  by_cases h : k ∈ d.map Prod.fst
  · rw [dictInsert_of_mem h, if_pos h, List.map_map]
    apply List.map_congr_left
    intro kv _
    by_cases hk : (kv.1 == k) = true <;> simp [Function.comp, hk]
  · rw [dictInsert_of_not_mem h, if_neg h, List.map_append]
    simp

theorem lastValD_cons_eq (rest : List (String × String)) (k v d : String) :
    lastValD ((k, v) :: rest) k d = lastValD rest k v := by
  unfold lastValD
  rw [List.filter_cons_of_pos (by simp), List.map_cons, List.getLastD_cons]

theorem lastValD_cons_ne (rest : List (String × String)) (k1 v k d : String)
    (h : k1 ≠ k) :
    lastValD ((k1, v) :: rest) k d = lastValD rest k d := by
  unfold lastValD
  rw [List.filter_cons_of_neg (by simp [h])]

theorem lastValD_nil (k d : String) : lastValD [] k d = d := rfl

theorem dedupKeepFirst_filter (p : String → Bool) (l : List String) :
    (dedupKeepFirst l).filter p = dedupKeepFirst (l.filter p) := by
  induction l with
  | nil => rfl
  | cons a l ih =>
    by_cases h : p a = true
    · rw [show dedupKeepFirst (a :: l) =
          a :: (dedupKeepFirst l).filter (fun b => b != a) from rfl,
        List.filter_cons_of_pos h, List.filter_filter,
        List.filter_cons_of_pos h,
        show dedupKeepFirst (a :: l.filter p) =
          a :: (dedupKeepFirst (l.filter p)).filter (fun b => b != a) from rfl,
        ← ih, List.filter_filter]
      congr 1
      apply List.filter_congr
      intro x _
      rw [Bool.and_comm]
    · rw [show dedupKeepFirst (a :: l) =
          a :: (dedupKeepFirst l).filter (fun b => b != a) from rfl,
        List.filter_cons_of_neg h, List.filter_filter,
        List.filter_cons_of_neg h, ← ih]
      apply List.filter_congr
      intro x _
      by_cases hx : x = a
      · subst hx
        simp only [Bool.not_eq_true] at h
        simp [h]
      · simp [hx]

theorem mem_dedupKeepFirst (x : String) (l : List String) :
    x ∈ dedupKeepFirst l ↔ x ∈ l := by
  induction l with
  | nil => simp [dedupKeepFirst]
  | cons a l ih =>
    rw [show dedupKeepFirst (a :: l) =
      a :: (dedupKeepFirst l).filter (fun b => b != a) from rfl]
    simp only [List.mem_cons, List.mem_filter]
    constructor
    · rintro (rfl | ⟨hx, _⟩)
      · exact Or.inl rfl
      · exact Or.inr (ih.mp hx)
    · rintro (rfl | hx)
      · exact Or.inl rfl
      · by_cases hxa : x = a
        · exact Or.inl hxa
        · exact Or.inr ⟨ih.mpr hx, by simp [hxa]⟩

theorem nodup_dedupKeepFirst (l : List String) : (dedupKeepFirst l).Nodup := by
  induction l with
  | nil => exact List.Pairwise.nil
  | cons a l ih =>
    rw [show dedupKeepFirst (a :: l) =
      a :: (dedupKeepFirst l).filter (fun b => b != a) from rfl,
      List.nodup_cons]
    refine ⟨?_, List.Nodup.filter _ ih⟩
    intro hmem
    have := (List.mem_filter.mp hmem).2
    simp at this

theorem dedupKeepFirst_of_nodup {l : List String} (h : l.Nodup) :
    dedupKeepFirst l = l := by
  induction l with
  | nil => rfl
  | cons a l ih =>
    rw [List.nodup_cons] at h
    rw [show dedupKeepFirst (a :: l) =
      a :: (dedupKeepFirst l).filter (fun b => b != a) from rfl,
      ih h.2]
    congr 1
    rw [List.filter_eq_self]
    intro x hx
    have : x ≠ a := fun hxa => h.1 (hxa ▸ hx)
    simp [this]

theorem dictFold_eq (pairs : List (String × String)) :
    ∀ acc : List (String × String),
    pairs.foldl (fun a kv => dictInsert a kv.1 kv.2) acc =
      acc.map (fun kv => (kv.1, lastValD pairs kv.1 kv.2)) ++
      (dedupKeepFirst ((pairs.map Prod.fst).filter
        (fun x => decide (x ∉ acc.map Prod.fst)))).map
        (fun x => (x, lastValD pairs x "")) := by
  induction pairs with
  | nil =>
    intro acc
    simp [lastValD_nil, dedupKeepFirst]
  | cons hd rest ih =>
    intro acc
    obtain ⟨k, v⟩ := hd
    rw [List.foldl_cons, ih]
    simp only [List.map_cons]
    by_cases hmem : k ∈ acc.map Prod.fst
    · -- k already a key of acc
      have hkeys : (dictInsert acc k v).map Prod.fst = acc.map Prod.fst := by
        rw [dictInsert_keys, if_pos hmem]
      have hA : (dictInsert acc k v).map
          (fun kv => (kv.1, lastValD rest kv.1 kv.2)) =
          acc.map (fun kv => (kv.1, lastValD ((k, v) :: rest) kv.1 kv.2)) := by
        rw [dictInsert_of_mem hmem, List.map_map]
        apply List.map_congr_left
        intro kv _
        by_cases hk : kv.1 = k
        · subst hk
          simp [Function.comp, lastValD_cons_eq]
        · simp [Function.comp, hk,
            lastValD_cons_ne rest k v kv.1 kv.2 (Ne.symm hk)]
      have hB : (dedupKeepFirst ((rest.map Prod.fst).filter
          (fun x => decide (x ∉ (dictInsert acc k v).map Prod.fst)))).map
            (fun x => (x, lastValD rest x "")) =
          (dedupKeepFirst ((rest.map Prod.fst).filter
          (fun x => decide (x ∉ acc.map Prod.fst)))).map
            (fun x => (x, lastValD ((k, v) :: rest) x "")) := by
        simp only [hkeys]
        apply List.map_congr_left
        intro x hx
        have hxm := (mem_dedupKeepFirst x _).mp hx
        have hxp := (List.mem_filter.mp hxm).2
        have hxacc : x ∉ acc.map Prod.fst := of_decide_eq_true hxp
        have hxk : k ≠ x := fun he => hxacc (he ▸ hmem)
        rw [lastValD_cons_ne rest k v x "" hxk]
      rw [hA, hB]
      congr 2
      rw [List.filter_cons_of_neg]
      simp [hmem]
    · have hkeys : (dictInsert acc k v).map Prod.fst =
          acc.map Prod.fst ++ [k] := by
        rw [dictInsert_keys, if_neg hmem]
      have hA : (dictInsert acc k v).map
          (fun kv => (kv.1, lastValD rest kv.1 kv.2)) =
          acc.map (fun kv => (kv.1, lastValD ((k, v) :: rest) kv.1 kv.2)) ++
            [(k, lastValD rest k v)] := by
        rw [dictInsert_of_not_mem hmem, List.map_append]
        congr 1
        apply List.map_congr_left
        intro kv hkv
        have hne : k ≠ kv.1 := fun he =>
          hmem (he ▸ List.mem_map_of_mem Prod.fst hkv)
        rw [lastValD_cons_ne rest k v kv.1 kv.2 hne]
      have hfilter : (rest.map Prod.fst).filter
          (fun x => decide (x ∉ acc.map Prod.fst ++ [k])) =
          ((rest.map Prod.fst).filter
            (fun x => decide (x ∉ acc.map Prod.fst))).filter
            (fun x => x != k) := by
        rw [List.filter_filter]
        apply List.filter_congr
        intro x _
        by_cases h1 : x ∈ acc.map Prod.fst <;> by_cases h2 : x = k <;>
          simp [h1, h2]
      have hB : (dedupKeepFirst ((rest.map Prod.fst).filter
          (fun x => decide (x ∉ (dictInsert acc k v).map Prod.fst)))).map
            (fun x => (x, lastValD rest x "")) =
          ((dedupKeepFirst ((rest.map Prod.fst).filter
            (fun x => decide (x ∉ acc.map Prod.fst)))).filter
            (fun b => b != k)).map
            (fun x => (x, lastValD ((k, v) :: rest) x "")) := by
        simp only [hkeys]
        rw [hfilter, ← dedupKeepFirst_filter]
        apply List.map_congr_left
        intro x hx
        have hxk : x ≠ k := by
          have := (List.mem_filter.mp hx).2
          simpa using this
        rw [lastValD_cons_ne rest k v x "" (Ne.symm hxk)]
      have hD : (k :: rest.map Prod.fst).filter
          (fun x => decide (x ∉ acc.map Prod.fst)) =
          k :: (rest.map Prod.fst).filter
            (fun x => decide (x ∉ acc.map Prod.fst)) := by
        rw [List.filter_cons_of_pos]
        simp [hmem]
      rw [hA, hB, hD]
      rw [show dedupKeepFirst (k :: (rest.map Prod.fst).filter
        (fun x => decide (x ∉ acc.map Prod.fst))) =
        k :: (dedupKeepFirst ((rest.map Prod.fst).filter
          (fun x => decide (x ∉ acc.map Prod.fst)))).filter
          (fun b => b != k) from rfl]
      simp [lastValD_cons_eq, List.append_assoc]

theorem dictOfPairs_eq (pairs : List (String × String)) :
    dictOfPairs pairs =
      (dedupKeepFirst (pairs.map Prod.fst)).map
        (fun k => (k, lastValD pairs k "")) := by
  unfold dictOfPairs
  rw [dictFold_eq]
  simp [List.filter_true]

theorem dictOfPairs_keys (pairs : List (String × String)) :
    (dictOfPairs pairs).map Prod.fst = dedupKeepFirst (pairs.map Prod.fst) := by
  rw [dictOfPairs_eq, List.map_map]
  rw [show (Prod.fst ∘ fun x => (x, lastValD pairs x "")) =
    fun x : String => x from rfl]
  exact List.map_id' _

theorem lookup_of_mem_nodupKeys :
    ∀ (l : List (String × String)), (l.map Prod.fst).Nodup →
    ∀ kv ∈ l, l.lookup kv.1 = some kv.2 := by
  intro l
  induction l with
  | nil => intro _ kv hkv; cases hkv
  | cons hd t ih =>
    intro hnd kv hkv
    obtain ⟨k1, v1⟩ := hd
    rw [List.map_cons, List.nodup_cons] at hnd
    rcases List.mem_cons.mp hkv with rfl | hkv'
    · exact List.lookup_cons_self
    · have hmm : kv.1 ∈ t.map Prod.fst := List.mem_map_of_mem Prod.fst hkv'
      have hne : kv.1 ≠ k1 := fun he => hnd.1 (he ▸ hmm)
      rw [List.lookup_cons]
      rw [show (kv.1 == k1) = false by simpa using hne]
      exact ih hnd.2 kv hkv'

theorem lookup_dictOfPairs (pairs : List (String × String)) (k : String)
    (h : k ∈ pairs.map Prod.fst) :
    (dictOfPairs pairs).lookup k = some (lastValD pairs k "") := by
  rw [dictOfPairs_eq]
  have hmem : (k, lastValD pairs k "") ∈
      (dedupKeepFirst (pairs.map Prod.fst)).map
        (fun x => (x, lastValD pairs x "")) :=
    List.mem_map_of_mem _ ((mem_dedupKeepFirst _ _).mpr h)
  have hnd : (((dedupKeepFirst (pairs.map Prod.fst)).map
      (fun x => (x, lastValD pairs x ""))).map Prod.fst).Nodup := by
    rw [List.map_map]
    rw [show (Prod.fst ∘ fun x => (x, lastValD pairs x "")) =
      fun x : String => x from rfl]
    rw [List.map_id']
    exact nodup_dedupKeepFirst _
  exact lookup_of_mem_nodupKeys _ hnd _ hmem

theorem filter_key_nil {t : List (String × String)} {k : String}
    (h : k ∉ t.map Prod.fst) :
    t.filter (fun kv => kv.1 == k) = [] := by
  rw [List.filter_eq_nil_iff]
  intro kv hkv
  simp only [beq_iff_eq]
  exact fun he => h (he ▸ List.mem_map_of_mem Prod.fst hkv)

theorem lastValD_of_nodupKeys :
    ∀ (pairs : List (String × String)), (pairs.map Prod.fst).Nodup →
    ∀ kv ∈ pairs, ∀ d, lastValD pairs kv.1 d = kv.2 := by
  intro pairs
  induction pairs with
  | nil => intro _ kv hkv; cases hkv
  | cons hd t ih =>
    intro hnd kv hkv d
    obtain ⟨k1, v1⟩ := hd
    rw [List.map_cons, List.nodup_cons] at hnd
    rcases List.mem_cons.mp hkv with rfl | hkv'
    · show lastValD ((k1, v1) :: t) k1 d = v1
      rw [lastValD_cons_eq]
      unfold lastValD
      rw [filter_key_nil hnd.1]
      rfl
    · have hmm : kv.1 ∈ t.map Prod.fst := List.mem_map_of_mem Prod.fst hkv'
      have hne : k1 ≠ kv.1 := fun he => hnd.1 (he.symm ▸ hmm)
      rw [lastValD_cons_ne t k1 v1 kv.1 d hne]
      exact ih hnd.2 kv hkv' d

theorem dictOfPairs_of_nodupKeys {pairs : List (String × String)}
    (h : (pairs.map Prod.fst).Nodup) : dictOfPairs pairs = pairs := by
  rw [dictOfPairs_eq, dedupKeepFirst_of_nodup h, List.map_map]
  conv_rhs => rw [← List.map_id pairs]
  apply List.map_congr_left
  intro kv hm
  simp only [Function.comp_apply, id]
  rw [lastValD_of_nodupKeys pairs h kv hm ""]

theorem enum_pairs_keys (engine : Nat → String → RecOutcome)
    (paths : List String) :
    (paths.enum.map
      (fun ip => (ip.2, recognizedText (engine ip.1) ip.2))).map Prod.fst =
      paths := by
  rw [List.map_map]
  rw [show (Prod.fst ∘ fun ip : Nat × String =>
    (ip.2, recognizedText (engine ip.1) ip.2)) = Prod.snd from rfl]
  exact List.enumFrom_map_snd 0 paths

theorem mem_enum_self (paths : List String) (i : Nat)
    (hi : i < paths.length) : (i, paths[i]) ∈ paths.enum := by
  rw [List.mem_enum_iff_getElem?]
  simp [hi]

theorem formatted_results_eq (results : List (String × String)) :
    formatted_results results =
      dictOfPairs (results.map (fun kv => (basename kv.1, kv.2))) := by
  unfold formatted_results dictOfPairs
  rw [List.foldl_map]

theorem formatted_results_keys (results : List (String × String)) :
    (formatted_results results).map Prod.fst =
      dedupKeepFirst (results.map (fun kv => basename kv.1)) := by
  rw [formatted_results_eq, dictOfPairs_keys, List.map_map]
  rw [show (Prod.fst ∘ fun kv : String × String => (basename kv.1, kv.2)) =
    fun kv : String × String => basename kv.1 from rfl]

theorem lastValD_basename (results : List (String × String)) (b : String)
    (hne : results.filter (fun kv => basename kv.1 == b) ≠ []) :
    some (lastValD (results.map (fun kv => (basename kv.1, kv.2))) b "") =
      ((results.filter (fun kv => basename kv.1 == b)).getLast?).map
        Prod.snd := by
  unfold lastValD
  rw [List.filter_map]
  rw [show ((fun kv : String × String => kv.1 == b) ∘
    fun kv : String × String => (basename kv.1, kv.2)) =
    fun kv : String × String => basename kv.1 == b from rfl]
  rw [List.map_map]
  rw [show (Prod.snd ∘ fun kv : String × String => (basename kv.1, kv.2)) =
    Prod.snd from rfl]
  rw [List.getLastD_eq_getLast?, List.getLast?_map,
    List.getLast?_eq_getLast_of_ne_nil hne]
  rfl

theorem process_batch_fst (self : BatchOCR)
    (engine : Nat → String → RecOutcome) (paths : List String) (cb : Bool) :
    (process_batch self engine paths cb).1 = self := by
  obtain ⟨b⟩ := self
  cases b
  · cases paths with
    | nil => rfl
    | cons p rest =>
      unfold process_batch process_batch_go
      rw [process_image_unavailable]
  · unfold process_batch
    rw [process_batch_go_available]

theorem lastValD_enum (engine : Nat → String → RecOutcome)
    (paths : List String) (k : String) (h : k ∈ paths) :
    lastValD (paths.enum.map
        (fun ip => (ip.2, recognizedText (engine ip.1) ip.2))) k "" =
      recognizedText (engine (lastOccIdx paths k)) k := by
  have hLne : paths.enum.filter (fun ip => ip.2 == k) ≠ [] := by
    rcases List.mem_iff_getElem.mp h with ⟨i, hi, rfl⟩
    exact List.ne_nil_of_mem
      (List.mem_filter.mpr ⟨mem_enum_self paths i hi, by simp⟩)
  unfold lastValD lastOccIdx
  rw [List.filter_map]
  rw [show ((fun kv : String × String => kv.1 == k) ∘
    fun ip : Nat × String => (ip.2, recognizedText (engine ip.1) ip.2)) =
    fun ip : Nat × String => ip.2 == k from rfl]
  rw [List.map_map]
  rw [show (Prod.snd ∘ fun ip : Nat × String =>
    (ip.2, recognizedText (engine ip.1) ip.2)) =
    fun ip : Nat × String => recognizedText (engine ip.1) ip.2 from rfl]
  rw [List.getLastD_eq_getLast?, List.getLast?_map,
    List.getLastD_eq_getLast?, List.getLast?_map,
    List.getLast?_eq_getLast_of_ne_nil hLne]
  have h2 : ((paths.enum.filter (fun ip => ip.2 == k)).getLast hLne).2 = k := by
    have hmem := List.getLast_mem hLne
    have := (List.mem_filter.mp hmem).2
    simpa using this
  show recognizedText
    (engine ((paths.enum.filter (fun ip => ip.2 == k)).getLast hLne).1)
    ((paths.enum.filter (fun ip => ip.2 == k)).getLast hLne).2 =
    recognizedText
    (engine ((paths.enum.filter (fun ip => ip.2 == k)).getLast hLne).1) k
  rw [h2]

/-- Claim C10: `process_image`, `process_batch` and `save_to_json` leave the
cached availability flag unchanged (the post-state of the object equals the
pre-state), and `save_to_json` builds a fresh basename-keyed dictionary:
every key of the formatted output is the basename of some key of the input
mapping, which is itself left untouched (all model values are immutable and
the state threading returns the object unchanged). -/
theorem frame_conditions (self : BatchOCR) (e : String → RecOutcome)
    (p : String) (engine : Nat → String → RecOutcome) (paths : List String)
    (cb : Bool) (results : List (String × String)) (io : Except String Unit) :
    (process_image self e p).1 = self ∧
    (process_batch self engine paths cb).1 = self ∧
    (save_to_json self results io).1 = self ∧
    ∀ k ∈ ((save_to_json self results io).2.2.map Prod.fst),
      ∃ k0, k0 ∈ results.map Prod.fst ∧ k = basename k0 := by
  refine ⟨process_image_fst self e p,
    process_batch_fst self engine paths cb, ?_, ?_⟩
  · unfold save_to_json; cases io <;> rfl
  · have hsv : (save_to_json self results io).2.2 =
        formatted_results results := by
      unfold save_to_json; cases io <;> rfl
    intro k hk
    rw [hsv, formatted_results_keys] at hk
    rcases List.mem_map.mp ((mem_dedupKeepFirst _ _).mp hk) with ⟨kv, hkv, hh⟩
    exact ⟨kv.1, List.mem_map_of_mem Prod.fst hkv, hh.symm⟩

/-- Claim C5: serializing a result mapping that contains two distinct
references with the same basename produces exactly one key for that basename
(its count among the output keys is 1), and its value is the value of the
matching entry that appears last in the mapping's iteration order
(last-write-wins). -/
theorem serialize_basename_collision (self : BatchOCR)
    (results : List (String × String)) (io : Except String Unit)
    (r1 r2 : String) (hnd : (results.map Prod.fst).Nodup)
    (h1 : r1 ∈ results.map Prod.fst) (h2 : r2 ∈ results.map Prod.fst)
    (hne : r1 ≠ r2) (hb : basename r1 = basename r2) :
    ((save_to_json self results io).2.2.map Prod.fst).count (basename r1)
      = 1 ∧
    (save_to_json self results io).2.2.lookup (basename r1) =
      ((results.filter
        (fun kv => basename kv.1 == basename r1)).getLast?).map
        Prod.snd := by
  have hsv : (save_to_json self results io).2.2 =
      formatted_results results := by
    unfold save_to_json; cases io <;> rfl
  rcases List.mem_map.mp h1 with ⟨kv1, hkv1, hkv1e⟩
  have hmemb : basename r1 ∈ results.map (fun kv => basename kv.1) := by
    rw [← hkv1e]
    exact List.mem_map_of_mem _ hkv1
  constructor
  · rw [hsv, formatted_results_keys]
    exact List.count_eq_one_of_mem (nodup_dedupKeepFirst _)
      ((mem_dedupKeepFirst _ _).mpr hmemb)
  · have hLne :
        results.filter (fun kv => basename kv.1 == basename r1) ≠ [] := by
      apply List.ne_nil_of_mem (a := kv1)
      exact List.mem_filter.mpr ⟨hkv1, by simp [hkv1e]⟩
    have hkey : basename r1 ∈
        (results.map (fun kv => (basename kv.1, kv.2))).map Prod.fst := by
      rw [List.map_map]
      rw [show (Prod.fst ∘ fun kv : String × String =>
        (basename kv.1, kv.2)) =
        fun kv : String × String => basename kv.1 from rfl]
      exact hmemb
    rw [hsv, formatted_results_eq, lookup_dictOfPairs _ _ hkey]
    exact lastValD_basename results (basename r1) hLne

/-- Claim C7: with the engine available and duplicates among the input
references, the returned mapping has exactly one entry per distinct
reference, keyed in first-occurrence (insertion) order, and each entry's
value is the recognition outcome of the last-processed occurrence of that
reference. -/
theorem duplicate_refs_collapse (engine : Nat → String → RecOutcome)
    (paths : List String) (hdup : ¬ paths.Nodup) :
    ∃ m, (process_batch ⟨true⟩ engine paths true).2.2 = Except.ok m ∧
      m = (dedupKeepFirst paths).map
        (fun k => (k, recognizedText (engine (lastOccIdx paths k)) k)) ∧
      (m.map Prod.fst).Nodup ∧
      (∀ k, k ∈ m.map Prod.fst ↔ k ∈ paths) := by
  rw [process_batch_available]
  refine ⟨_, rfl, ?_, ?_, ?_⟩
  · rw [dictOfPairs_eq, enum_pairs_keys]
    apply List.map_congr_left
    intro k hk
    rw [lastValD_enum engine paths k ((mem_dedupKeepFirst _ _).mp hk)]
  · rw [dictOfPairs_keys, enum_pairs_keys]
    exact nodup_dedupKeepFirst _
  · intro k
    rw [dictOfPairs_keys, enum_pairs_keys]
    exact mem_dedupKeepFirst k paths

/-- Claim C8: when the engine is available and recognition of an image
succeeds with raw text `t`, `process_image` returns `t` stripped of leading
and trailing whitespace, and `process_batch` records exactly that stripped
text as the item's result. -/
theorem success_text_recorded (engine : Nat → String → RecOutcome)
    (paths : List String) (i : Nat) (hi : i < paths.length) (t : String)
    (hnd : paths.Nodup)
    (hsucc : engine i paths[i] = RecOutcome.success t) :
    (process_image ⟨true⟩ (engine i) paths[i]).2.2 =
      Except.ok (pyStrip t) ∧
    ∃ m, (process_batch ⟨true⟩ engine paths true).2.2 = Except.ok m ∧
      m.lookup paths[i] = some (pyStrip t) := by
  have hndk : ((paths.enum.map (fun ip =>
      (ip.2, recognizedText (engine ip.1) ip.2))).map Prod.fst).Nodup := by
    rw [enum_pairs_keys]; exact hnd
  constructor
  · rw [process_image_available]
    simp only [recognizedText, hsucc]
  · rw [process_batch_available]
    refine ⟨_, rfl, ?_⟩
    rw [dictOfPairs_of_nodupKeys hndk]
    have hmem : ((paths[i] : String), recognizedText (engine i) paths[i]) ∈
        paths.enum.map
          (fun ip => (ip.2, recognizedText (engine ip.1) ip.2)) :=
      List.mem_map.mpr ⟨(i, paths[i]), mem_enum_self paths i hi, rfl⟩
    have hlk := lookup_of_mem_nodupKeys _ hndk _ hmem
    rw [show recognizedText (engine i) paths[i] = pyStrip t by
      unfold recognizedText; rw [hsucc]] at hlk
    exact hlk

/-- Claim C3: engine available, distinct references, exactly one failing
item: the returned mapping still has one entry per input (N entries), the
failing entry's value is the empty string, every other entry holds its
stripped recognized text, the batch is not aborted (the result is a normal
`ok`), and the N progress events are still emitted in order, each strictly
before the item's recognition attempt. -/
theorem single_failure_isolated (engine : Nat → String → RecOutcome)
    (paths : List String) (j : Nat) (hj : j < paths.length)
    (hnd : paths.Nodup)
    (hfail : engine j paths[j] = RecOutcome.failure)
    (hsucc : ∀ i, ∀ hi : i < paths.length, i ≠ j →
      (engine i paths[i]).isSuccessB = true) :
    ∃ m, (process_batch ⟨true⟩ engine paths true).2.2 = Except.ok m ∧
      m.length = paths.length ∧
      m.lookup paths[j] = some "" ∧
      (∀ i, ∀ hi : i < paths.length, i ≠ j → ∃ t,
        engine i paths[i] = RecOutcome.success t ∧
        m.lookup paths[i] = some (pyStrip t)) ∧
      (process_batch ⟨true⟩ engine paths true).2.1 =
        (paths.enum.map (fun ip =>
          [Event.progress ip.1 paths.length (basename ip.2),
           Event.attempt ip.2])).flatten := by
  have hndk : ((paths.enum.map (fun ip =>
      (ip.2, recognizedText (engine ip.1) ip.2))).map Prod.fst).Nodup := by
    rw [enum_pairs_keys]; exact hnd
  rw [process_batch_available]
  refine ⟨_, rfl, ?_, ?_, ?_, ?_⟩
  · rw [dictOfPairs_of_nodupKeys hndk, List.length_map]
    exact List.enumFrom_length
  · rw [dictOfPairs_of_nodupKeys hndk]
    have hmem : ((paths[j] : String), recognizedText (engine j) paths[j]) ∈
        paths.enum.map
          (fun ip => (ip.2, recognizedText (engine ip.1) ip.2)) :=
      List.mem_map.mpr ⟨(j, paths[j]), mem_enum_self paths j hj, rfl⟩
    have hlk := lookup_of_mem_nodupKeys _ hndk _ hmem
    rw [show recognizedText (engine j) paths[j] = "" by
      unfold recognizedText; rw [hfail]] at hlk
    exact hlk
  · intro i hi hij
    have hs := hsucc i hi hij
    cases he : engine i paths[i] with
    | failure =>
      rw [he] at hs
      simp [RecOutcome.isSuccessB] at hs
    | success t =>
      refine ⟨t, rfl, ?_⟩
      rw [dictOfPairs_of_nodupKeys hndk]
      have hmem : ((paths[i] : String),
          recognizedText (engine i) paths[i]) ∈
          paths.enum.map
            (fun ip => (ip.2, recognizedText (engine ip.1) ip.2)) :=
        List.mem_map.mpr ⟨(i, paths[i]), mem_enum_self paths i hi, rfl⟩
      have hlk := lookup_of_mem_nodupKeys _ hndk _ hmem
      rw [show recognizedText (engine i) paths[i] = pyStrip t by
        unfold recognizedText; rw [he]] at hlk
      exact hlk
  · simp

theorem serialize_basename_collision_witness :
    ((save_to_json ⟨true⟩ [("dir1/x.png", "A"), ("dir2/x.png", "B")]
      (Except.ok ())).2.2.map Prod.fst).count (basename "dir1/x.png") = 1 ∧
    (save_to_json ⟨true⟩ [("dir1/x.png", "A"), ("dir2/x.png", "B")]
      (Except.ok ())).2.2.lookup (basename "dir1/x.png") =
      (([("dir1/x.png", "A"), ("dir2/x.png", "B")].filter
        (fun kv => basename kv.1 == basename "dir1/x.png")).getLast?).map
        Prod.snd :=
  serialize_basename_collision ⟨true⟩
    [("dir1/x.png", "A"), ("dir2/x.png", "B")] (Except.ok ())
    "dir1/x.png" "dir2/x.png"
    (by decide) (by decide) (by decide) (by decide) (by decide)

theorem duplicate_refs_collapse_witness :
    ∃ m, (process_batch ⟨true⟩
        (fun i _ => if i == 2 then RecOutcome.success "last"
          else RecOutcome.success "first")
        ["a.png", "b.png", "a.png"] true).2.2 = Except.ok m ∧
      m = (dedupKeepFirst ["a.png", "b.png", "a.png"]).map
        (fun k => (k, recognizedText
          ((fun i _ => if i == 2 then RecOutcome.success "last"
            else RecOutcome.success "first")
            (lastOccIdx ["a.png", "b.png", "a.png"] k)) k)) ∧
      (m.map Prod.fst).Nodup ∧
      (∀ k, k ∈ m.map Prod.fst ↔
        k ∈ (["a.png", "b.png", "a.png"] : List String)) :=
  duplicate_refs_collapse
    (fun i _ => if i == 2 then RecOutcome.success "last"
      else RecOutcome.success "first")
    ["a.png", "b.png", "a.png"] (by decide)

theorem success_text_recorded_witness :
    (process_image ⟨true⟩
      ((fun _ _ => RecOutcome.success "  hello  ") 0)
      (["img/a.png", "b.png"] : List String)[0]).2.2 =
      Except.ok (pyStrip "  hello  ") ∧
    ∃ m, (process_batch ⟨true⟩ (fun _ _ => RecOutcome.success "  hello  ")
        ["img/a.png", "b.png"] true).2.2 = Except.ok m ∧
      m.lookup (["img/a.png", "b.png"] : List String)[0] =
        some (pyStrip "  hello  ") :=
  success_text_recorded (fun _ _ => RecOutcome.success "  hello  ")
    ["img/a.png", "b.png"] 0 (by decide) "  hello  " (by decide) rfl

theorem single_failure_isolated_witness :
    ∃ m, (process_batch ⟨true⟩
        (fun i _ => if i == 1 then RecOutcome.failure
          else RecOutcome.success " hi ")
        ["a.png", "b/c.png", "d.png"] true).2.2 = Except.ok m ∧
      m.length = (["a.png", "b/c.png", "d.png"] : List String).length ∧
      m.lookup (["a.png", "b/c.png", "d.png"] : List String)[1] = some "" ∧
      (∀ i, ∀ hi : i < (["a.png", "b/c.png", "d.png"] : List String).length,
        i ≠ 1 → ∃ t,
        (fun i _ => if i == 1 then RecOutcome.failure
          else RecOutcome.success " hi ") i
          (["a.png", "b/c.png", "d.png"] : List String)[i] =
          RecOutcome.success t ∧
        m.lookup (["a.png", "b/c.png", "d.png"] : List String)[i] =
          some (pyStrip t)) ∧
      (process_batch ⟨true⟩
        (fun i _ => if i == 1 then RecOutcome.failure
          else RecOutcome.success " hi ")
        ["a.png", "b/c.png", "d.png"] true).2.1 =
        ((["a.png", "b/c.png", "d.png"] : List String).enum.map (fun ip =>
          [Event.progress ip.1
            (["a.png", "b/c.png", "d.png"] : List String).length
            (basename ip.2),
           Event.attempt ip.2])).flatten :=
  single_failure_isolated
    (fun i _ => if i == 1 then RecOutcome.failure
      else RecOutcome.success " hi ")
    ["a.png", "b/c.png", "d.png"] 1 (by decide) (by decide) rfl (by decide)
